import Mathlib


/-!
Shallow embedding of the profiling-and-generation engine of the
`test-data-generation` crate (files `src/profile/profile.rs` and
`src/profile/fact.rs`), together with theorems settling the behavioural
claims about it.

Modelling conventions:
* Rust `u32`/`usize` counters become `Nat` (no overflow is reachable in the
  claims considered; counts only grow by small increments).
* Rust `f64` percentages become `ℚ` (exact arithmetic; the spec's 1e-6
  tolerance absorbs the floating-point gap).
* `BTreeMap<K, V>` becomes a key-sorted association list `List (K × Nat)`;
  `entry(k).or_insert(0) += 1` becomes `mapBump`.
* A Rust panic (unwrap of `None`, `usize` underflow followed by an
  out-of-bounds index) is modelled as the `Option` value `none`.
* The random sources (`random_between!` / `random_percentage!` macros live in
  the crate root, which is not part of the sources here) are modelled from the
  spec as injected parameters: a rational in `[0,100)` for `generate`, and a
  list of draws consumed left to right for `apply_facts`.
-/

namespace TDG

/-- The blank character used by the source as the sentinel for `prev_char`
and for absent `prior_key` values (`unwrap_or(' ')`). -/
def blankChar : Char := Char.ofNat 32

/-- Mirror of `struct Fact` in `src/profile/fact.rs`: one character's
classification and positional metadata. `starts_with`/`ends_with` are `u32`
flags (0 or 1) in the source and are kept as `Nat`. -/
structure Fact where
  key : Char
  prior_key : Option Char
  next_key : Option Char
  pattern_placeholder : Char
  starts_with : Nat
  ends_with : Nat
  index_offset : Nat
deriving DecidableEq, Repr

/-- Modelled from the spec: the fixed character-classification alphabet of the
SymbolClassifier (`src/profile/pattern.rs` is not among the sources). Upper and
lower vowels map to V/v, other letters to C/c, digits to a digit placeholder,
spaces and punctuation to their own symbols, everything else to an
other-placeholder. The claims never depend on the particular symbols, only on
the map being a fixed function of the character. -/
def classify (c : Char) : Char :=
  if c ∈ ['a', 'e', 'i', 'o', 'u'] then 'v'
  else if c ∈ ['A', 'E', 'I', 'O', 'U'] then 'V'
  else if c.isLower then 'c'
  else if c.isUpper then 'C'
  else if c.isDigit then '#'
  else if c = blankChar then 'S'
  else if c ∈ [',', '.', '/', '-', '@'] then 'p'
  else '~'

/-- Modelled from the spec: `Pattern::analyze` (in the absent
`src/profile/pattern.rs`) maps a sample to a same-length pattern string,
an ordered list of Facts (one per character, populated per the invariants of
spec section 3: `starts_with` iff index 0, `ends_with` iff last index,
`prior_key`/`next_key` the neighbouring characters of the raw input), and the
sample's length (`pattrn.size`). -/
def patternAnalyze (entity : String) : String × List Fact × Nat :=
  let cs := entity.toList
  let n := cs.length
  (String.mk (cs.map classify),
   (List.range n).map (fun i =>
     { key := cs.getD i blankChar
       prior_key := if i = 0 then none else some (cs.getD (i - 1) blankChar)
       next_key := if i = n - 1 then none else some (cs.getD (i + 1) blankChar)
       pattern_placeholder := classify (cs.getD i blankChar)
       starts_with := if i = 0 then 1 else 0
       ends_with := if i = n - 1 then 1 else 0
       index_offset := i }),
   n)

/-- Mirror of `BTreeMap::entry(k).or_insert(0) += 1` on a key-sorted
association list: increment the count of `k`, inserting it with count 1 if
absent. -/
def mapBump {α : Type} [LT α] [DecidableEq α] [DecidableRel (fun a b : α => a < b)] :
    List (α × Nat) → α → List (α × Nat)
  | [], k => [(k, 1)]
  | (k', v) :: rest, k =>
    if k < k' then (k, 1) :: (k', v) :: rest
    else if k = k' then (k', v + 1) :: rest
    else (k', v) :: mapBump rest k

/-- Mirror of the fact-distribution loop in `Profile::analyze`
(`src/profile/profile.rs` lines 222-231): a mutable index `i` starts at 0,
is reset to 0 whenever it reaches `procs`, and each fact is pushed onto
partition `i` before `i` is incremented. -/
def distributeFacts (procs : Nat) : List (List Fact) → Nat → List Fact → List (List Fact)
  | fss, _, [] => fss
  | fss, i, f :: fs =>
    let j := if i = procs then 0 else i
    distributeFacts procs (fss.set j (fss.getD j [] ++ [f])) (j + 1) fs

/-- Mirror of `struct Profile` in `src/profile/profile.rs` lines 101-126. -/
structure Profile where
  patterns : List (String × Nat)
  pattern_total : Nat
  pattern_keys : List String
  pattern_vals : List Nat
  pattern_percentages : List (String × ℚ)
  pattern_ranks : List (String × ℚ)
  sizes : List (Nat × Nat)
  size_total : Nat
  size_ranks : List (Nat × ℚ)
  processors : Nat
  facts : List (List Fact)

/-- Mirror of `Profile::new_facts`: `p` empty partitions. -/
def Profile.new_facts (p : Nat) : List (List Fact) :=
  (List.range p).map (fun _ => [])

/-- Mirror of `Profile::new_with(p)`. -/
def Profile.new_with (p : Nat) : Profile :=
  { patterns := []
    pattern_total := 0
    pattern_keys := []
    pattern_vals := []
    pattern_percentages := []
    pattern_ranks := []
    sizes := []
    size_total := 0
    size_ranks := []
    processors := p
    facts := Profile.new_facts p }

/-- Mirror of `Profile::new()`: four processors. -/
def Profile.new : Profile := Profile.new_with 4

/-- Mirror of `Profile::analyze` (`src/profile/profile.rs` lines 215-245):
run the pattern analyzer, distribute the facts round-robin from partition 0,
bump the pattern and size tables, and recompute the totals and the cached
key/value vectors. -/
def Profile.analyze (p : Profile) (entity : String) : Profile :=
  let rslt := patternAnalyze entity
  let patterns' := mapBump p.patterns rslt.1
  let sizes' := mapBump p.sizes rslt.2.2
  { p with
    facts := distributeFacts p.processors p.facts 0 rslt.2.1
    patterns := patterns'
    pattern_total := (patterns'.map Prod.snd).sum
    sizes := sizes'
    size_total := (sizes'.map Prod.snd).sum
    pattern_keys := patterns'.map Prod.fst
    pattern_vals := patterns'.map Prod.snd }

/-- The comparator passed to the rank sorts: `b.partial_cmp(&a)`, i.e.
descending by the percentage component (on `ℚ` the comparison is total, so the
source's `unwrap` never fails). -/
def descBySnd {α : Type} (a b : α × ℚ) : Bool := decide (b.2 ≤ a.2)

/-- Mirror of the cumulative-sum loop shared by `cum_patternmap` (lines
388-394) and the `scan` in `cum_sizemap` (lines 437-440): running total
starting at `acc`, pairing each key with the sum so far. -/
def cumRanks {α : Type} : ℚ → List (α × ℚ) → List (α × ℚ)
  | _, [] => []
  | acc, (k, v) :: rest => (k, acc + v) :: cumRanks (acc + v) rest

/-- The fresh percentage entries pushed by `Profile::cum_patternmap` lines
376-380: for `m` in `0..patterns.len()`, the pair
`(pattern_keys[m], pattern_vals[m] / pattern_total * 100)`. -/
def newPatternPercs (p : Profile) : List (String × ℚ) :=
  (List.range p.patterns.length).map (fun m =>
    (p.pattern_keys.getD m "",
     ((p.pattern_vals.getD m 0 : ℚ) / (p.pattern_total : ℚ)) * 100))

/-- Mirror of `Profile::cum_patternmap` (lines 371-395). Note the source
pushes onto `pattern_percentages` and `pattern_ranks` without clearing them:
the new percentages are appended to the old ones before the in-place stable
sort, and the cumulative entries are appended after the old ranks. -/
def Profile.cum_patternmap (p : Profile) : Profile :=
  let percs := (p.pattern_percentages ++ newPatternPercs p).mergeSort descBySnd
  { p with
    pattern_percentages := percs
    pattern_ranks := p.pattern_ranks ++ cumRanks 0 percs }

/-- The local `size_ranks` map of `Profile::cum_sizemap` lines 424-428: the
size table's keys (already in increasing key order) paired with their
percentages. -/
def sizePercs (p : Profile) : List (Nat × ℚ) :=
  p.sizes.map (fun kv => (kv.1, ((kv.2 : ℚ) / (p.size_total : ℚ)) * 100))

/-- The sorted percentage list of `Profile::cum_sizemap` lines 432-433. -/
def sortedSizePercs (p : Profile) : List (Nat × ℚ) :=
  (sizePercs p).mergeSort descBySnd

/-- Mirror of `Profile::cum_sizemap` (lines 421-441). Unlike
`cum_patternmap`, the result is assigned to `size_ranks`, replacing the old
value. -/
def Profile.cum_sizemap (p : Profile) : Profile :=
  { p with size_ranks := cumRanks 0 (sortedSizePercs p) }

/-- Mirror of `Profile::pre_generate` (lines 530-533). -/
def Profile.pre_generate (p : Profile) : Profile :=
  (p.cum_sizemap).cum_patternmap

/-- Mirror of `Profile::reset_analyze` (lines 570-572): only the pattern map
is reassigned. -/
def Profile.reset_analyze (p : Profile) : Profile :=
  { p with patterns := [] }

/-- Mirror of the record filter in `Profile::apply_facts` lines 295-298:
`starts_with == starts && ends_with == ends && pattern_placeholder == *c &&
index_offset == idx`. -/
def factMatches (f : Fact) (starts ends : Nat) (c : Char) (idx : Nat) : Bool :=
  f.starts_with == starts && f.ends_with == ends &&
    f.pattern_placeholder == c && f.index_offset == idx

/-- Mirror of the pushes in `Profile::apply_facts` lines 299-313 for one
matching record: one base copy of `key`, two more if
`prior_key.unwrap_or(' ')` equals the previously generated character, and two
more if `index_offset == idx` (which the surrounding filter has already
established). -/
def factContribution (f : Fact) (prior_char : Char) (idx : Nat) : List Char :=
  [f.key] ++
    (if f.prior_key.getD blankChar = prior_char then [f.key, f.key] else []) ++
    (if f.index_offset = idx then [f.key, f.key] else [])

/-- The merged candidate pool `fact_options` of `Profile::apply_facts` lines
284-321: every partition is scanned for matching records and the per-partition
selections are concatenated in partition order. -/
def factOptions (facts : List (List Fact)) (starts ends : Nat) (c : Char)
    (idx : Nat) (prior_char : Char) : List Char :=
  facts.flatMap (fun v =>
    v.flatMap (fun f =>
      if factMatches f starts ends c idx then factContribution f prior_char idx
      else []))

/-- One position of `Profile::apply_facts` (lines 280-338): build the pool,
then select. `none` models the panic on an empty pool (`fact_options.len()-1`
underflows and the subsequent index is out of bounds). With a single candidate
(`rnd_start >= rnd_end`) the source pushes `fact_options[0]` without touching
`prev_char` and without consuming randomness; otherwise it consumes one draw,
sets `prev_char` to the drawn candidate and pushes it. Modelled from the spec:
`random_between!` (crate root, not among the sources) draws uniformly over the
pool, modelled by consuming the head of the injected draw list modulo the pool
size. Returns (pushed char, new prev_char, remaining draws). -/
def applyFactsStep (facts : List (List Fact)) (lastIdx : Nat) (idx : Nat)
    (c : Char) (prev : Char) (draws : List Nat) : Option (Char × Char × List Nat) :=
  let starts := if idx = 0 then 1 else 0
  let ends := if idx = lastIdx then 1 else 0
  let opts := factOptions facts starts ends c idx prev
  if opts.length = 0 then none
  else if opts.length = 1 then some (opts.getD 0 blankChar, prev, draws)
  else
    let x := draws.headD 0 % opts.length
    let ch := opts.getD x blankChar
    some (ch, ch, draws.tail)

/-- The position loop of `Profile::apply_facts`: left to right over the
pattern characters, threading `prev_char`, the draw list and the accumulated
output. -/
def applyFactsGo (facts : List (List Fact)) (lastIdx : Nat) :
    List Char → Nat → Char → List Nat → List Char → Option (List Char)
  | [], _, _, _, acc => some acc
  | c :: cs, idx, prev, draws, acc =>
    match applyFactsStep facts lastIdx idx c prev draws with
    | none => none
    | some (ch, prev', draws') =>
      applyFactsGo facts lastIdx cs (idx + 1) prev' draws' (acc ++ [ch])

/-- Mirror of `Profile::apply_facts` (lines 270-343): `prev_char` starts as
the blank sentinel, the generated string starts empty. `none` models a panic. -/
def Profile.apply_facts (p : Profile) (pattern : String) (draws : List Nat) :
    Option String :=
  let pcs := pattern.toList
  (applyFactsGo p.facts (pcs.length - 1) pcs 0 blankChar draws []).map String.mk

/-- Mirror of `Profile::generate` (lines 466-484). Modelled from the spec:
`random_percentage!` (crate root, not among the sources) draws a uniform
`s ∈ [0,100)`, injected here as a parameter. The source takes the first rank
entry whose cumulative percentage is `≥ s` and unwraps it: `none` models the
panic when no entry qualifies (in particular on an empty rank table). -/
def Profile.generate (p : Profile) (s : ℚ) (draws : List Nat) : Option String :=
  match p.pattern_ranks.find? (fun x => decide (s ≤ x.2)) with
  | none => none
  | some pattern => p.apply_facts pattern.1 draws

/-- Total count stored in a frequency table: the sum of its values. -/
def sumVals {α : Type} (m : List (α × Nat)) : Nat := (m.map Prod.snd).sum

/-- Total number of facts across all partitions. -/
def totalFacts (fss : List (List Fact)) : Nat := (fss.map List.length).sum

/-- A sequence of ingest calls, left to right. -/
def ingestAll (p : Profile) (samples : List String) : Profile :=
  samples.foldl Profile.analyze p

end TDG

namespace TDG

/-- A concrete two-partition record store used to instantiate theorems with
hypotheses: one fact for position 0 (key a) and one for position 1 (key b) of
a two-character all-lowercase-consonant pattern. -/
def sampleFacts : List (List Fact) :=
  [[{ key := 'a', prior_key := none, next_key := some 'b', pattern_placeholder := 'c',
      starts_with := 1, ends_with := 0, index_offset := 0 }],
   [{ key := 'b', prior_key := some 'a', next_key := none, pattern_placeholder := 'c',
      starts_with := 0, ends_with := 1, index_offset := 1 }], [], []]

/-- C2: `analyze` performs no empty-string validation: ingesting the empty
string records the zero-length pattern with count 1 and size 0 with count 1,
mutating both tables instead of returning an `InvalidInput` error. -/
theorem analyze_empty_mutates_tables :
    (Profile.new.analyze "").patterns = [("", 1)] ∧
    (Profile.new.analyze "").sizes = [(0, 1)] ∧
    (Profile.new.analyze "").pattern_total = 1 ∧
    (Profile.new.analyze "").size_total = 1 := by
  refine ⟨rfl, rfl, rfl, rfl⟩

/-- C4: on an empty candidate pool `apply_facts` panics (`fact_options.len()-1`
underflows and the subsequent index is out of bounds), modelled as `none`,
instead of returning a `NoMatchingFact` error: here the fresh profile has only
empty partitions, so position 0 of pattern c has an empty pool. -/
theorem apply_facts_empty_pool_panics :
    factOptions Profile.new.facts 1 1 'c' 0 blankChar = [] ∧
    Profile.new.apply_facts "c" [] = none := ⟨rfl, rfl⟩

/-- C6 counterexample: `reset_analyze` clears only the pattern map; after
ingesting a one-character sample and resetting, the size table still holds its
entry, refuting the claim that both maps end up empty. -/
theorem reset_analyze_keeps_sizes :
    ((Profile.new.analyze "a").reset_analyze).patterns = [] ∧
    ((Profile.new.analyze "a").reset_analyze).sizes = [(1, 1)] := by
  refine ⟨rfl, rfl⟩

/-- C6 amended: `reset_analyze` empties the pattern table and leaves the size
table exactly as it was. -/
theorem reset_analyze_amended (p : Profile) :
    (p.reset_analyze).patterns = [] ∧ (p.reset_analyze).sizes = p.sizes :=
  ⟨rfl, rfl⟩

/-- C10: `reset_analyze` mutates only the pattern map: every other field of
the Profile — size table, totals, cached keys and values, percentage and rank
tables, processor count and the record store — is unchanged. -/
theorem reset_analyze_frame (p : Profile) :
    (p.reset_analyze).patterns = [] ∧
    (p.reset_analyze).sizes = p.sizes ∧
    (p.reset_analyze).size_total = p.size_total ∧
    (p.reset_analyze).pattern_total = p.pattern_total ∧
    (p.reset_analyze).pattern_keys = p.pattern_keys ∧
    (p.reset_analyze).pattern_vals = p.pattern_vals ∧
    (p.reset_analyze).pattern_percentages = p.pattern_percentages ∧
    (p.reset_analyze).pattern_ranks = p.pattern_ranks ∧
    (p.reset_analyze).size_ranks = p.size_ranks ∧
    (p.reset_analyze).processors = p.processors ∧
    (p.reset_analyze).facts = p.facts :=
  ⟨rfl, rfl, rfl, rfl, rfl, rfl, rfl, rfl, rfl, rfl, rfl⟩

/-- C9: the candidate pool is exactly the concatenation, over all partitions
and records, of `replicate 5 key` for records matching the filter whose
`prior_key` (with the blank sentinel for `None`) equals the previously
generated character, `replicate 3 key` for the other matching records (base
copy plus the two copies of the always-true `index_offset` check), and nothing
for non-matching records. -/
theorem pool_weights (facts : List (List Fact)) (starts ends : Nat) (c : Char)
    (idx : Nat) (prev : Char) :
    factOptions facts starts ends c idx prev =
      facts.flatMap (fun v => v.flatMap (fun f =>
        if factMatches f starts ends c idx then
          List.replicate (if f.prior_key.getD blankChar = prev then 5 else 3) f.key
        else [])) := by
  unfold factOptions
  induction facts with
  | nil => rfl
  | cons v vs ih =>
    simp only [List.flatMap_cons, ih]
    congr 1
    induction v with
    | nil => rfl
    | cons f fs ihf =>
      simp only [List.flatMap_cons, ihf]
      congr 1
      by_cases hm : factMatches f starts ends c idx = true
      · have hidx : f.index_offset = idx := by
          have := hm
          simp only [factMatches, Bool.and_eq_true, beq_iff_eq] at this
          exact this.2
        simp only [hm, if_true, factContribution, hidx, if_pos rfl]
        by_cases hp : f.prior_key.getD blankChar = prev
        · simp [hp, List.replicate]
        · simp [hp, List.replicate]
      · simp [hm]


/-- Helper: a sum of naturals each of which is 0 or at least 3 is itself 0 or
at least 3 (so in particular never 1). -/
theorem sum_zero_or_ge_three : ∀ (l : List Nat), (∀ x ∈ l, x = 0 ∨ 3 ≤ x) →
    l.sum = 0 ∨ 3 ≤ l.sum
  | [], _ => Or.inl rfl
  | x :: xs, h => by
    have hx := h x (List.mem_cons_self x xs)
    have hxs := sum_zero_or_ge_three xs (fun y hy => h y (List.mem_cons_of_mem x hy))
    simp only [List.sum_cons]
    omega

/-- Helper: every matching record contributes 3 or 5 copies and every other
record none, so the candidate pool never has exactly one (or two) entries. -/
theorem factOptions_length_cases (facts : List (List Fact)) (starts ends : Nat)
    (c : Char) (idx : Nat) (prev : Char) :
    (factOptions facts starts ends c idx prev).length = 0 ∨
      3 ≤ (factOptions facts starts ends c idx prev).length := by
  unfold factOptions
  rw [List.length_flatMap]
  apply sum_zero_or_ge_three
  intro x hx
  rw [List.mem_map] at hx
  obtain ⟨v, hv, rfl⟩ := hx
  simp only [Function.comp_apply]
  rw [List.length_flatMap]
  apply sum_zero_or_ge_three
  intro y hy
  rw [List.mem_map] at hy
  obtain ⟨f, hf, rfl⟩ := hy
  simp only [Function.comp_apply]
  by_cases hm : factMatches f starts ends c idx = true
  · right
    have hidx : f.index_offset = idx := by
      simp only [factMatches, Bool.and_eq_true, beq_iff_eq] at hm
      exact hm.2
    simp only [hm, if_true, factContribution, hidx, if_pos rfl]
    by_cases hp : f.prior_key.getD blankChar = prev <;> simp [hp]
  · left
    simp [hm]

/-- C5: whenever a position of `apply_facts` succeeds in selecting a
character, that character both becomes the new `prev_char` and is appended to
the output before the loop moves to the next position. The source's
direct-selection branch (`rnd_start >= rnd_end`), which would skip the
`prev_char` update, requires a pool of exactly one entry and is unreachable:
matching records always contribute 3 or 5 copies. -/
theorem apply_facts_selected_char (facts : List (List Fact)) (lastIdx idx : Nat)
    (c prev : Char) (draws : List Nat) (r : Char × Char × List Nat)
    (h : applyFactsStep facts lastIdx idx c prev draws = some r) :
    r.2.1 = r.1 ∧
    ∀ (cs acc : List Char),
      applyFactsGo facts lastIdx (c :: cs) idx prev draws acc =
        applyFactsGo facts lastIdx cs (idx + 1) r.1 r.2.2 (acc ++ [r.1]) := by
  obtain ⟨ch, pr, ds⟩ := r
  have hpr : pr = ch := by
    have hlen := factOptions_length_cases facts (if idx = 0 then 1 else 0)
      (if idx = lastIdx then 1 else 0) c idx prev
    simp only [applyFactsStep] at h
    rcases hlen with h0 | h3
    · rw [if_pos h0] at h
      exact absurd h (by simp)
    · rw [if_neg (by omega), if_neg (by omega)] at h
      have h2 := Option.some.inj h
      exact (congrArg (fun t => t.2.1) h2).symm.trans (congrArg (fun t => t.1) h2)
  subst hpr
  refine ⟨rfl, ?_⟩
  intro cs acc
  show (match applyFactsStep facts lastIdx idx c prev draws with
    | none => none
    | some (st, prev2, draws2) =>
      applyFactsGo facts lastIdx cs (idx + 1) prev2 draws2 (acc ++ [st])) = _
  rw [h]

/-- C5 witness: at position 0 of a two-character pattern over `sampleFacts`,
the step selects a and a becomes the next prev character and is appended. -/
theorem apply_facts_selected_char_witness :
    (('a', 'a', ([] : List Nat)).2.1 = ('a', 'a', ([] : List Nat)).1 ∧
     ∀ (cs acc : List Char),
       applyFactsGo sampleFacts 1 ('c' :: cs) 0 blankChar [] acc =
         applyFactsGo sampleFacts 1 cs (0 + 1) ('a', 'a', ([] : List Nat)).1
           ('a', 'a', ([] : List Nat)).2.2 (acc ++ [('a', 'a', ([] : List Nat)).1])) :=
  apply_facts_selected_char sampleFacts 1 0 'c' blankChar [] ('a', 'a', []) (by decide)

/-- Helper: `cumRanks` preserves length. -/
theorem cumRanks_length {α : Type} : ∀ (a : ℚ) (l : List (α × ℚ)),
    (cumRanks a l).length = l.length
  | _, [] => rfl
  | a, (k, v) :: rest => by
    simp only [cumRanks, List.length_cons, cumRanks_length]

/-- Helper: the new percentage entries number exactly `patterns.length`. -/
theorem newPatternPercs_length (p : Profile) :
    (newPatternPercs p).length = p.patterns.length := by
  simp [newPatternPercs]

/-- Helper: one `cum_patternmap` call appends: the percentage list grows by
`patterns.length` and the rank list by the size of the whole sorted
percentage list. -/
theorem cum_patternmap_ranks_length (p : Profile) :
    (p.cum_patternmap).pattern_ranks.length =
      p.pattern_ranks.length + (p.pattern_percentages.length + p.patterns.length) := by
  simp [Profile.cum_patternmap, cumRanks_length, List.length_mergeSort,
    newPatternPercs_length]

/-- Helper: percentage-list growth under `cum_patternmap`. -/
theorem cum_patternmap_percs_length (p : Profile) :
    (p.cum_patternmap).pattern_percentages.length =
      p.pattern_percentages.length + p.patterns.length := by
  simp [Profile.cum_patternmap, List.length_mergeSort, newPatternPercs_length]

/-- Helper: `pre_generate` leaves the pattern table itself unchanged. -/
theorem pre_generate_patterns (p : Profile) :
    (p.pre_generate).patterns = p.patterns := rfl

/-- Helper: rank growth under `pre_generate` (the `cum_sizemap` half touches
no pattern field). -/
theorem pre_generate_ranks_length (p : Profile) :
    (p.pre_generate).pattern_ranks.length =
      p.pattern_ranks.length + (p.pattern_percentages.length + p.patterns.length) :=
  cum_patternmap_ranks_length p.cum_sizemap

/-- Helper: percentage growth under `pre_generate`. -/
theorem pre_generate_percs_length (p : Profile) :
    (p.pre_generate).pattern_percentages.length =
      p.pattern_percentages.length + p.patterns.length :=
  cum_patternmap_percs_length p.cum_sizemap

/-- C1: on a Profile with no ingested samples the rank table is empty — with
or without a prior `pre_generate` call — and `generate` panics on `unwrap` of
`None` (modelled as `none`) instead of returning a `NotTrained` error: the
source has no error type at all. -/
theorem generate_untrained_panics (k : Nat) (s : ℚ) (draws : List Nat) :
    (Profile.new_with k).generate s draws = none ∧
    ((Profile.new_with k).pre_generate).generate s draws = none := by
  refine ⟨rfl, ?_⟩
  have hl : ((Profile.new_with k).pre_generate).pattern_ranks.length = 0 := by
    rw [pre_generate_ranks_length]
    rfl
  have h1 := List.length_eq_zero.mp hl
  show (match ((Profile.new_with k).pre_generate).pattern_ranks.find?
      (fun x => decide (s ≤ x.2)) with
    | none => none
    | some pattern =>
        ((Profile.new_with k).pre_generate).apply_facts pattern.1 draws) = none
  rw [h1, List.find?_nil]

/-- C3: `pre_generate` is not idempotent. After ingesting one sample the first
call leaves one pattern-rank entry, but a second call pushes the freshly
recomputed percentages onto the still-populated `pattern_percentages` and
appends two more cumulative entries onto `pattern_ranks`, leaving three
entries instead of one. -/
theorem pre_generate_accumulates :
    ((Profile.new.analyze "ab").pre_generate).pattern_ranks.length = 1 ∧
    (((Profile.new.analyze "ab").pre_generate).pre_generate).pattern_ranks.length = 3 := by
  have hp : (Profile.new.analyze "ab").patterns.length = 1 := rfl
  have hpc : (Profile.new.analyze "ab").pattern_percentages.length = 0 := rfl
  have hr : (Profile.new.analyze "ab").pattern_ranks.length = 0 := rfl
  constructor
  · rw [pre_generate_ranks_length, hp, hpc, hr]
  · rw [pre_generate_ranks_length, pre_generate_percs_length,
      pre_generate_ranks_length, pre_generate_patterns, hp, hpc, hr]


/-- Helper: bumping a key raises the table's total count by exactly one. -/
theorem sumVals_mapBump {α : Type} [LT α] [DecidableEq α]
    [DecidableRel (fun a b : α => a < b)] :
    ∀ (m : List (α × Nat)) (k : α), sumVals (mapBump m k) = sumVals m + 1
  | [], k => by simp [mapBump, sumVals]
  | (k', v) :: rest, k => by
    by_cases h1 : k < k'
    · simp [mapBump, h1, sumVals]
      omega
    · by_cases h2 : k = k'
      · subst h2
        simp [mapBump, h1, sumVals]
        omega
      · have ih := sumVals_mapBump rest k
        simp [mapBump, h1, h2, sumVals] at ih ⊢
        omega

/-- Helper: round-robin distribution never changes the number of partitions. -/
theorem distributeFacts_length (procs : Nat) :
    ∀ (l : List Fact) (fss : List (List Fact)) (i : Nat),
      (distributeFacts procs fss i l).length = fss.length
  | [], _, _ => rfl
  | f :: fs, fss, i => by
    simp only [distributeFacts]
    rw [distributeFacts_length procs fs]
    exact List.length_set ..

/-- Helper: appending one fact to partition `i` adds one to the record total. -/
theorem totalFacts_set_push :
    ∀ (fss : List (List Fact)) (i : Nat) (f : Fact), i < fss.length →
      totalFacts (fss.set i (fss.getD i [] ++ [f])) = totalFacts fss + 1
  | [], i, f, h => absurd h (by simp)
  | v :: vs, 0, f, _ => by
    simp [totalFacts]
    omega
  | v :: vs, i + 1, f, h => by
    have ih := totalFacts_set_push vs i f (by simpa using h)
    simp only [List.set_cons_succ, List.getD_cons_succ, totalFacts, List.map_cons,
      List.sum_cons] at ih ⊢
    omega

/-- Helper: distributing `l` over the partitions adds `l.length` records in
total, provided the partition count matches and the running index is in
range (as maintained by `analyze` from a well-formed profile). -/
theorem totalFacts_distributeFacts (procs : Nat) (hpos : 0 < procs) :
    ∀ (l : List Fact) (fss : List (List Fact)) (i : Nat),
      fss.length = procs → i ≤ procs →
      totalFacts (distributeFacts procs fss i l) = totalFacts fss + l.length
  | [], fss, i, _, _ => rfl
  | f :: fs, fss, i, hlen, hi => by
    simp only [distributeFacts]
    have hj : (if i = procs then 0 else i) < procs := by
      split
      · exact hpos
      · omega
    have hjl : (if i = procs then 0 else i) < fss.length := by omega
    rw [totalFacts_distributeFacts procs hpos fs _ _
      (by rw [List.length_set]; exact hlen) (by omega)]
    rw [totalFacts_set_push fss _ f hjl]
    simp only [List.length_cons]
    omega

/-- Helper: the pattern analyzer returns one fact per character. -/
theorem patternAnalyze_facts_length (entity : String) :
    (patternAnalyze entity).2.1.length = entity.length := by
  show ((List.range entity.toList.length).map _).length = _
  rw [List.length_map, List.length_range]
  rfl

/-- Helper: the fields `analyze` writes, as rewrite rules. -/
theorem analyze_patterns (p : Profile) (e : String) :
    (p.analyze e).patterns = mapBump p.patterns (patternAnalyze e).1 := rfl

/-- Helper: the size table after `analyze`. -/
theorem analyze_sizes (p : Profile) (e : String) :
    (p.analyze e).sizes = mapBump p.sizes (patternAnalyze e).2.2 := rfl

/-- Helper: the record store after `analyze`. -/
theorem analyze_facts (p : Profile) (e : String) :
    (p.analyze e).facts = distributeFacts p.processors p.facts 0 (patternAnalyze e).2.1 := rfl

/-- Helper: `ingestAll` unfolds one call at a time. -/
theorem ingestAll_cons (p : Profile) (e : String) (rest : List String) :
    ingestAll p (e :: rest) = ingestAll (p.analyze e) rest := rfl

/-- Helper: `ingestAll` of no samples. -/
theorem ingestAll_nil (p : Profile) : ingestAll p [] = p := rfl

/-- Helper: one `analyze` call bumps both totals by one, adds `entity.length`
records, and preserves the partition structure. -/
theorem analyze_counts (p : Profile) (entity : String)
    (hfl : p.facts.length = p.processors) (hpp : 0 < p.processors) :
    sumVals (p.analyze entity).patterns = sumVals p.patterns + 1 ∧
    sumVals (p.analyze entity).sizes = sumVals p.sizes + 1 ∧
    totalFacts (p.analyze entity).facts = totalFacts p.facts + entity.length ∧
    (p.analyze entity).facts.length = p.facts.length ∧
    (p.analyze entity).processors = p.processors := by
  refine ⟨?_, ?_, ?_, ?_, rfl⟩
  · rw [analyze_patterns, sumVals_mapBump]
  · rw [analyze_sizes, sumVals_mapBump]
  · rw [analyze_facts,
      totalFacts_distributeFacts p.processors hpp _ _ _ hfl (Nat.zero_le _),
      patternAnalyze_facts_length]
  · rw [analyze_facts]
    exact distributeFacts_length ..

/-- Helper: counting invariant over a whole ingest sequence. -/
theorem ingestAll_counts :
    ∀ (samples : List String) (p : Profile),
      p.facts.length = p.processors → 0 < p.processors →
      sumVals (ingestAll p samples).patterns = sumVals p.patterns + samples.length ∧
      sumVals (ingestAll p samples).sizes = sumVals p.sizes + samples.length ∧
      totalFacts (ingestAll p samples).facts
        = totalFacts p.facts + (samples.map String.length).sum ∧
      (ingestAll p samples).facts.length = (ingestAll p samples).processors ∧
      (ingestAll p samples).processors = p.processors
  | [], p, hfl, hpp => by
    rw [ingestAll_nil]
    refine ⟨by simp, by simp, by simp, hfl, rfl⟩
  | e :: rest, p, hfl, hpp => by
    obtain ⟨a1, a2, a3, a4, a5⟩ := analyze_counts p e hfl hpp
    have ih := ingestAll_counts rest (p.analyze e) (a4.trans (hfl.trans a5.symm)) (a5 ▸ hpp)
    obtain ⟨i1, i2, i3, i4, i5⟩ := ih
    rw [ingestAll_cons]
    refine ⟨?_, ?_, ?_, i4, i5.trans a5⟩
    · rw [i1, a1]
      simp only [List.length_cons]
      omega
    · rw [i2, a2]
      simp only [List.length_cons]
      omega
    · rw [i3, a3]
      simp only [List.map_cons, List.sum_cons]
      omega

/-- C8: for every sequence of successful (non-empty) ingest calls on a fresh
Profile, the pattern-table total, the size-table total, and the number of
records across all partitions are the number of calls, the number of calls,
and the total length of the ingested samples, respectively. -/
theorem ingest_totals (samples : List String) (h : ∀ st ∈ samples, st ≠ "") :
    sumVals (ingestAll Profile.new samples).patterns = samples.length ∧
    sumVals (ingestAll Profile.new samples).sizes = samples.length ∧
    totalFacts (ingestAll Profile.new samples).facts
      = (samples.map String.length).sum := by
  obtain ⟨i1, i2, i3, _, _⟩ := ingestAll_counts samples Profile.new rfl (by decide)
  have e1 : sumVals Profile.new.patterns = 0 := rfl
  have e2 : sumVals Profile.new.sizes = 0 := rfl
  have e3 : totalFacts Profile.new.facts = 0 := rfl
  rw [e1] at i1
  rw [e2] at i2
  rw [e3] at i3
  exact ⟨i1.trans (Nat.zero_add _), i2.trans (Nat.zero_add _), i3.trans (Nat.zero_add _)⟩

/-- C8 witness: two samples of lengths 2 and 1 give totals 2, 2, 3. -/
theorem ingest_totals_witness :
    (∀ st ∈ (["ab", "c"] : List String), st ≠ "") ∧
    (sumVals (ingestAll Profile.new ["ab", "c"]).patterns
        = (["ab", "c"] : List String).length ∧
     sumVals (ingestAll Profile.new ["ab", "c"]).sizes
        = (["ab", "c"] : List String).length ∧
     totalFacts (ingestAll Profile.new ["ab", "c"]).facts
        = ((["ab", "c"] : List String).map String.length).sum) :=
  ⟨by decide, ingest_totals ["ab", "c"] (by decide)⟩


/-- Helper: `cumRanks` keeps the keys in order. -/
theorem cumRanks_map_fst {α : Type} : ∀ (a : ℚ) (l : List (α × ℚ)),
    (cumRanks a l).map Prod.fst = l.map Prod.fst
  | _, [] => rfl
  | a, (k, v) :: rest => by
    simp only [cumRanks, List.map_cons, cumRanks_map_fst]

/-- Helper: the last cumulative value is the starting value plus the sum of
all percentages. -/
theorem cumRanks_snd_getLastD {α : Type} : ∀ (l : List (α × ℚ)) (a d : ℚ), l ≠ [] →
    ((cumRanks a l).map Prod.snd).getLastD d = a + (l.map Prod.snd).sum
  | [], _, _, h => absurd rfl h
  | [(k, v)], a, d, _ => by
    simp [cumRanks]
  | (k, v) :: (k2, v2) :: rest, a, d, _ => by
    have ih := cumRanks_snd_getLastD ((k2, v2) :: rest) (a + v) (a + v) (by simp)
    simp only [cumRanks, List.map_cons, List.getLastD_cons] at ih ⊢
    rw [ih]
    simp only [List.map_cons, List.sum_cons]
    ring

/-- Helper: with nonnegative percentages the running totals form an
ascending chain from the starting value. -/
theorem cumRanks_chain {α : Type} : ∀ (l : List (α × ℚ)) (a : ℚ),
    (∀ x ∈ l, 0 ≤ x.2) →
    List.Chain' (· ≤ ·) (a :: (cumRanks a l).map Prod.snd)
  | [], a, _ => List.chain'_singleton a
  | (k, v) :: rest, a, h => by
    have hv : 0 ≤ (k, v).2 := h (k, v) (List.mem_cons_self ..)
    have ih := cumRanks_chain rest (a + v) (fun x hx => h x (List.mem_cons_of_mem _ hx))
    simp only [cumRanks, List.map_cons]
    exact List.chain'_cons.mpr ⟨by simpa using hv, ih⟩

/-- Helper: with nonnegative percentages the cumulative values are
non-decreasing. -/
theorem cumRanks_pairwise {α : Type} (l : List (α × ℚ)) (a : ℚ)
    (h : ∀ x ∈ l, 0 ≤ x.2) :
    List.Pairwise (· ≤ ·) ((cumRanks a l).map Prod.snd) :=
  List.chain'_iff_pairwise.mp (cumRanks_chain l a h).tail

/-- Helper: the descending comparator is transitive. -/
theorem descBySnd_trans {α : Type} : ∀ (a b c : α × ℚ),
    descBySnd a b = true → descBySnd b c = true → descBySnd a c = true := by
  intro a b c hab hbc
  simp only [descBySnd, decide_eq_true_eq] at hab hbc ⊢
  exact le_trans hbc hab

/-- Helper: the descending comparator is total (so the source's
`partial_cmp(..).unwrap()` never fails on rationals). -/
theorem descBySnd_total {α : Type} : ∀ (a b : α × ℚ),
    (descBySnd a b || descBySnd b a) = true := by
  intro a b
  simp only [descBySnd, Bool.or_eq_true, decide_eq_true_eq]
  exact le_total b.2 a.2

/-- Helper: the sorted percentage list is in non-increasing percentage
order. -/
theorem mergeSort_desc {α : Type} (l : List (α × ℚ)) :
    List.Pairwise (fun a b => b.2 ≤ a.2) (l.mergeSort descBySnd) :=
  (List.sorted_mergeSort descBySnd_trans descBySnd_total l).imp
    (fun h => of_decide_eq_true h)

/-- Helper: reading a list back out by index. -/
theorem range_getD_map : ∀ (vs : List Nat),
    (List.range vs.length).map (fun m => vs.getD m 0) = vs
  | [] => rfl
  | v :: tl => by
    rw [List.length_cons, List.range_succ_eq_map, List.map_cons, List.map_map]
    simp only [List.getD_cons_zero]
    congr 1
    have hfun : ((fun m => (v :: tl).getD m 0) ∘ Nat.succ) = fun m => tl.getD m 0 := by
      funext m
      rfl
    rw [hfun, range_getD_map tl]

/-- Helper: mapping a function over indices into a list. -/
theorem range_getD_map_f {β : Type} (vs : List Nat) (f : Nat → β) :
    (List.range vs.length).map (fun m => f (vs.getD m 0)) = vs.map f := by
  have : (fun m => f (vs.getD m 0)) = f ∘ (fun m => vs.getD m 0) := rfl
  rw [this, ← List.map_map, range_getD_map]

/-- Helper: the percentages of a table with nonzero total sum to exactly
100. -/
theorem sum_map_percent (vs : List Nat) (t : ℚ) (h : t = (vs.sum : ℚ))
    (hne : vs.sum ≠ 0) :
    (vs.map (fun v : Nat => ((v : ℚ) / t) * 100)).sum = 100 := by
  have ht : t ≠ 0 := by
    rw [h]
    exact_mod_cast hne
  have h1 : (vs.map (fun v : Nat => ((v : ℚ) / t) * 100)).sum
      = (vs.map (fun v : Nat => ((v : ℚ)) * (100 / t))).sum := by
    congr 1
    apply List.map_congr_left
    intro v _
    ring
  have h2 : (vs.map (fun v : Nat => ((v : ℚ)) * (100 / t))).sum
      = (vs.map (fun v : Nat => (v : ℚ))).sum * (100 / t) :=
    List.sum_map_mul_right vs (fun v : Nat => (v : ℚ)) (100 / t)
  have h3 : (vs.map (fun v : Nat => (v : ℚ))).sum = ((vs.sum : Nat) : ℚ) := by
    rw [Nat.cast_list_sum]
  rw [h1, h2, h3, ← h, mul_comm]
  exact div_mul_cancel₀ 100 ht

/-- Helper: a table with nonzero total is nonempty. -/
theorem ne_nil_of_sumVals_ne_zero {α : Type} (m : List (α × Nat))
    (h : sumVals m ≠ 0) : m ≠ [] := by
  intro hm
  rw [hm] at h
  exact h rfl

/-- Helper: full specification of one `cum_patternmap` call from a state whose
cached keys/values and total agree with the pattern table, whose total is
nonzero, and whose percentage and rank lists are still empty (the state after
ingestion only): the resulting percentage list is sorted by non-increasing
percentage, the rank list carries the same keys in the same order, its
cumulative values are non-decreasing, and the final cumulative value is
exactly 100. -/
theorem cum_patternmap_spec (p : Profile)
    (hvals : p.pattern_vals = p.patterns.map Prod.snd)
    (htot : p.pattern_total = sumVals p.patterns)
    (hpos : sumVals p.patterns ≠ 0)
    (hpercs : p.pattern_percentages = [])
    (hranks : p.pattern_ranks = []) :
    List.Pairwise (fun a b => b.2 ≤ a.2) (p.cum_patternmap).pattern_percentages ∧
    (p.cum_patternmap).pattern_ranks.map Prod.fst
      = (p.cum_patternmap).pattern_percentages.map Prod.fst ∧
    List.Pairwise (· ≤ ·) ((p.cum_patternmap).pattern_ranks.map Prod.snd) ∧
    |((p.cum_patternmap).pattern_ranks.map Prod.snd).getLastD 0 - 100|
      ≤ 1 / 1000000 := by
  have hep : (p.cum_patternmap).pattern_percentages
      = (p.pattern_percentages ++ newPatternPercs p).mergeSort descBySnd := rfl
  have her : (p.cum_patternmap).pattern_ranks
      = p.pattern_ranks ++ cumRanks 0
          ((p.pattern_percentages ++ newPatternPercs p).mergeSort descBySnd) := rfl
  set percs := (p.pattern_percentages ++ newPatternPercs p).mergeSort descBySnd with hpercsdef
  have hperm : percs.Perm (newPatternPercs p) := by
    rw [hpercsdef, hpercs, List.nil_append]
    exact List.mergeSort_perm _ _
  have hmem : ∀ x ∈ percs, 0 ≤ x.2 := by
    intro x hx
    have hx2 : x ∈ newPatternPercs p := hperm.mem_iff.mp hx
    rw [newPatternPercs, List.mem_map] at hx2
    obtain ⟨m, _, rfl⟩ := hx2
    have h100 : (0 : ℚ) ≤ 100 := by norm_num
    exact mul_nonneg (div_nonneg (Nat.cast_nonneg _) (Nat.cast_nonneg _)) h100
  have hranks2 : (p.cum_patternmap).pattern_ranks = cumRanks 0 percs := by
    rw [her, hranks, List.nil_append]
  refine ⟨?_, ?_, ?_, ?_⟩
  · rw [hep]
    exact mergeSort_desc _
  · rw [hranks2, hep, cumRanks_map_fst]
  · rw [hranks2]
    exact cumRanks_pairwise percs 0 hmem
  · have hne : percs ≠ [] := by
      have hlp : percs.length = (newPatternPercs p).length := hperm.length_eq
      rw [newPatternPercs_length] at hlp
      have hpne : p.patterns ≠ [] := ne_nil_of_sumVals_ne_zero p.patterns hpos
      intro hnil
      rw [hnil] at hlp
      exact hpne (List.length_eq_zero.mp hlp.symm)
    have hsum : (percs.map Prod.snd).sum = 100 := by
      have hps : (percs.map Prod.snd).Perm ((newPatternPercs p).map Prod.snd) :=
        hperm.map Prod.snd
      rw [hps.sum_eq]
      have hsndform : (newPatternPercs p).map Prod.snd
          = (p.patterns.map Prod.snd).map
              (fun v : Nat => ((v : ℚ) / (p.pattern_total : ℚ)) * 100) := by
        rw [newPatternPercs, List.map_map]
        have hlen2 : p.patterns.length = (p.patterns.map Prod.snd).length :=
          (List.length_map ..).symm
        rw [hlen2]
        have hcomp : (Prod.snd ∘ fun m =>
            (p.pattern_keys.getD m "",
             ((p.pattern_vals.getD m 0 : ℚ) / (p.pattern_total : ℚ)) * 100))
            = fun m => ((((p.patterns.map Prod.snd).getD m 0 : Nat) : ℚ)
                / (p.pattern_total : ℚ)) * 100 := by
          funext m
          simp only [Function.comp_apply, hvals]
        rw [hcomp]
        exact range_getD_map_f (p.patterns.map Prod.snd)
          (fun v : Nat => ((v : ℚ) / (p.pattern_total : ℚ)) * 100)
      rw [hsndform]
      apply sum_map_percent
      · rw [htot]
        rfl
      · exact hpos
    rw [hranks2, cumRanks_snd_getLastD percs 0 0 hne, hsum]
    norm_num

/-- Helper: full specification of one `cum_sizemap` call: the sorted size
percentage list is in non-increasing percentage order, the size rank list
carries its keys in that order with non-decreasing cumulative values, and the
final cumulative value is exactly 100. -/
theorem cum_sizemap_spec (p : Profile)
    (htot : p.size_total = sumVals p.sizes)
    (hpos : sumVals p.sizes ≠ 0) :
    List.Pairwise (fun a b => b.2 ≤ a.2) (sortedSizePercs p) ∧
    (p.cum_sizemap).size_ranks.map Prod.fst = (sortedSizePercs p).map Prod.fst ∧
    List.Pairwise (· ≤ ·) ((p.cum_sizemap).size_ranks.map Prod.snd) ∧
    |((p.cum_sizemap).size_ranks.map Prod.snd).getLastD 0 - 100| ≤ 1 / 1000000 := by
  have her : (p.cum_sizemap).size_ranks = cumRanks 0 (sortedSizePercs p) := rfl
  have hperm : (sortedSizePercs p).Perm (sizePercs p) :=
    List.mergeSort_perm (sizePercs p) descBySnd
  have hmem : ∀ x ∈ sortedSizePercs p, 0 ≤ x.2 := by
    intro x hx
    have hx2 : x ∈ sizePercs p := hperm.mem_iff.mp hx
    rw [sizePercs, List.mem_map] at hx2
    obtain ⟨kv, _, rfl⟩ := hx2
    have h100 : (0 : ℚ) ≤ 100 := by norm_num
    exact mul_nonneg (div_nonneg (Nat.cast_nonneg _) (Nat.cast_nonneg _)) h100
  refine ⟨mergeSort_desc _, ?_, ?_, ?_⟩
  · rw [her, cumRanks_map_fst]
  · rw [her]
    exact cumRanks_pairwise _ 0 hmem
  · have hne : sortedSizePercs p ≠ [] := by
      have hlp : (sortedSizePercs p).length = (sizePercs p).length := hperm.length_eq
      rw [sizePercs, List.length_map] at hlp
      have hpne : p.sizes ≠ [] := ne_nil_of_sumVals_ne_zero p.sizes hpos
      intro hnil
      rw [hnil] at hlp
      exact hpne (List.length_eq_zero.mp hlp.symm)
    have hsum : ((sortedSizePercs p).map Prod.snd).sum = 100 := by
      have hps := (hperm.map Prod.snd).sum_eq
      rw [hps]
      have hsndform : (sizePercs p).map Prod.snd
          = (p.sizes.map Prod.snd).map
              (fun v : Nat => ((v : ℚ) / (p.size_total : ℚ)) * 100) := by
        rw [sizePercs, List.map_map, List.map_map]
        rfl
      rw [hsndform]
      apply sum_map_percent
      · rw [htot]
        rfl
      · exact hpos
    rw [her, cumRanks_snd_getLastD _ 0 0 hne, hsum]
    norm_num

/-- Helper: ingestion never touches the percentage or rank lists. -/
theorem ingestAll_untouched : ∀ (samples : List String) (p : Profile),
    (ingestAll p samples).pattern_percentages = p.pattern_percentages ∧
    (ingestAll p samples).pattern_ranks = p.pattern_ranks
  | [], _ => ⟨rfl, rfl⟩
  | e :: rest, p => ingestAll_untouched rest (p.analyze e)

/-- Helper: `analyze` re-establishes the cached key/value alignment and the
totals at every call, so they hold after any nonzero-or-zero number of
ingests from an aligned state. -/
theorem ingestAll_aligned : ∀ (samples : List String) (p : Profile),
    p.pattern_vals = p.patterns.map Prod.snd →
    p.pattern_total = sumVals p.patterns →
    p.size_total = sumVals p.sizes →
    ((ingestAll p samples).pattern_vals = (ingestAll p samples).patterns.map Prod.snd ∧
     (ingestAll p samples).pattern_total = sumVals (ingestAll p samples).patterns ∧
     (ingestAll p samples).size_total = sumVals (ingestAll p samples).sizes)
  | [], _, h1, h2, h3 => ⟨h1, h2, h3⟩
  | e :: rest, p, _, _, _ => ingestAll_aligned rest (p.analyze e) rfl rfl rfl

/-- C7: after ingesting at least one sample into a fresh Profile and running
`pre_generate` once, the pattern percentage list is sorted by non-increasing
original percentage and the pattern rank table carries exactly its keys in
that order with non-decreasing cumulative values whose last entry is within
1e-6 of 100 (here: exactly 100, since the model computes in ℚ); the size rank
table likewise carries the keys of the descending-sorted size percentage list
with non-decreasing cumulative values ending within 1e-6 of 100. -/
theorem finalize_rank_tables (samples : List String) (h : samples ≠ []) :
    List.Pairwise (fun a b => b.2 ≤ a.2)
      ((ingestAll Profile.new samples).pre_generate).pattern_percentages ∧
    ((ingestAll Profile.new samples).pre_generate).pattern_ranks.map Prod.fst
      = ((ingestAll Profile.new samples).pre_generate).pattern_percentages.map Prod.fst ∧
    List.Pairwise (· ≤ ·)
      (((ingestAll Profile.new samples).pre_generate).pattern_ranks.map Prod.snd) ∧
    |(((ingestAll Profile.new samples).pre_generate).pattern_ranks.map Prod.snd).getLastD 0
        - 100| ≤ 1 / 1000000 ∧
    List.Pairwise (fun a b => b.2 ≤ a.2)
      (sortedSizePercs (ingestAll Profile.new samples)) ∧
    ((ingestAll Profile.new samples).pre_generate).size_ranks.map Prod.fst
      = (sortedSizePercs (ingestAll Profile.new samples)).map Prod.fst ∧
    List.Pairwise (· ≤ ·)
      (((ingestAll Profile.new samples).pre_generate).size_ranks.map Prod.snd) ∧
    |(((ingestAll Profile.new samples).pre_generate).size_ranks.map Prod.snd).getLastD 0
        - 100| ≤ 1 / 1000000 := by
  obtain ⟨al1, al2, al3⟩ := ingestAll_aligned samples Profile.new rfl rfl rfl
  obtain ⟨u1, u2⟩ := ingestAll_untouched samples Profile.new
  obtain ⟨c1, c2, _, _, _⟩ := ingestAll_counts samples Profile.new rfl (by decide)
  have hlen : samples.length ≠ 0 := fun hl => h (List.length_eq_zero.mp hl)
  have hppos : sumVals (ingestAll Profile.new samples).patterns ≠ 0 := by
    rw [c1]
    have e0 : sumVals Profile.new.patterns = 0 := rfl
    omega
  have hspos : sumVals (ingestAll Profile.new samples).sizes ≠ 0 := by
    rw [c2]
    have e0 : sumVals Profile.new.sizes = 0 := rfl
    omega
  have hpat := cum_patternmap_spec ((ingestAll Profile.new samples).cum_sizemap)
    al1 al2 hppos u1 u2
  have hsiz := cum_sizemap_spec (ingestAll Profile.new samples) al3 hspos
  obtain ⟨p1, p2, p3, p4⟩ := hpat
  obtain ⟨s1, s2, s3, s4⟩ := hsiz
  exact ⟨p1, p2, p3, p4, s1, s2, s3, s4⟩

/-- C7 witness: the rank-table properties instantiated at the single-sample
ingest sequence consisting of the string a. -/
theorem finalize_rank_tables_witness :
    (["a"] : List String) ≠ [] ∧
    (List.Pairwise (fun a b => b.2 ≤ a.2)
      ((ingestAll Profile.new ["a"]).pre_generate).pattern_percentages ∧
    ((ingestAll Profile.new ["a"]).pre_generate).pattern_ranks.map Prod.fst
      = ((ingestAll Profile.new ["a"]).pre_generate).pattern_percentages.map Prod.fst ∧
    List.Pairwise (· ≤ ·)
      (((ingestAll Profile.new ["a"]).pre_generate).pattern_ranks.map Prod.snd) ∧
    |(((ingestAll Profile.new ["a"]).pre_generate).pattern_ranks.map Prod.snd).getLastD 0
        - 100| ≤ 1 / 1000000 ∧
    List.Pairwise (fun a b => b.2 ≤ a.2)
      (sortedSizePercs (ingestAll Profile.new ["a"])) ∧
    ((ingestAll Profile.new ["a"]).pre_generate).size_ranks.map Prod.fst
      = (sortedSizePercs (ingestAll Profile.new ["a"])).map Prod.fst ∧
    List.Pairwise (· ≤ ·)
      (((ingestAll Profile.new ["a"]).pre_generate).size_ranks.map Prod.snd) ∧
    |(((ingestAll Profile.new ["a"]).pre_generate).size_ranks.map Prod.snd).getLastD 0
        - 100| ≤ 1 / 1000000) :=
  ⟨by decide, finalize_rank_tables ["a"] (by decide)⟩

end TDG
